import Mathlib

/-!
# Verification of the `logistica_nx` routing core

A shallow embedding of the repository's graph data model
(`logistica_nx/graph.py`) and its algorithms
(`logistica_nx/algorithms.py`).  Node names are strings, weights are
rationals (the Python code works with `float` values parsed from text;
all arithmetic relevant to the verified properties is exact).  The
`networkx` library calls used by the code (`shortest_path`,
`floyd_warshall`, `strongly_connected_components`, `subgraph`) are
modelled by executable Lean functions that follow the library's
documented semantics on the inputs the repository produces.
-/

/-- The attribute dictionary stored on each edge by `graph.py`:
the four weather profiles plus the derived active `weight`. -/
structure EdgeData where
  normal : ℚ
  rain   : ℚ
  snow   : ℚ
  storm  : ℚ
  weight : ℚ
deriving DecidableEq, Repr

/-- The `times` dictionary passed to `LogisticaGraph.add_connection`. -/
structure Times where
  normal : ℚ
  rain   : ℚ
  snow   : ℚ
  storm  : ℚ
deriving DecidableEq, Repr

/-- State of a `LogisticaGraph`: the underlying `nx.DiGraph` (node list and
edge list, both in insertion order, at most one edge per ordered pair)
plus the `current_weather` field. -/
structure LGraph where
  nodes : List String
  edges : List (String × String × EdgeData)
  current_weather : String
deriving DecidableEq, Repr

/-- `LogisticaGraph.__init__`: empty digraph, weather `"normal"`. -/
def LGraph.init : LGraph := ⟨[], [], "normal"⟩

/-- `graph.has_node(n)`. -/
def hasNode (g : LGraph) (n : String) : Bool := g.nodes.contains n

/-- `graph.has_edge(u, v)`. -/
def hasEdge (g : LGraph) (u v : String) : Bool :=
  g.edges.any (fun e => e.1 = u && e.2.1 = v)

/-- The edge attribute dictionary `graph[u][v]`, if the edge exists. -/
def getEdgeData (g : LGraph) (u v : String) : Option EdgeData :=
  (g.edges.find? (fun e => e.1 = u && e.2.1 = v)).map (fun e => e.2.2)

/-- `graph[u][v]['weight']` (0 when the edge is absent; the code only
reads weights of edges it has just traversed, so the default is never
observable). -/
def edgeWeight (g : LGraph) (u v : String) : ℚ :=
  ((getEdgeData g u v).map EdgeData.weight).getD 0

/-- `nx.DiGraph.add_node`: appends the node if absent. -/
def addNode (g : LGraph) (n : String) : LGraph :=
  if hasNode g n then g else { g with nodes := g.nodes ++ [n] }

/-- `nx.DiGraph.add_edge(u, v, **attrs)` with the full five-key attribute
set: creates missing endpoints, then replaces the attributes of an
existing `(u, v)` edge or appends a new edge. -/
def addEdge (g : LGraph) (u v : String) (d : EdgeData) : LGraph :=
  let g1 := addNode (addNode g u) v
  if hasEdge g1 u v then
    { g1 with edges := g1.edges.map (fun e =>
        if e.1 = u && e.2.1 = v then (u, v, d) else e) }
  else
    { g1 with edges := g1.edges ++ [(u, v, d)] }

/-- The dynamic lookup `attrs[weather_type]` on an edge attribute
dictionary: `none` models a Python `KeyError`. -/
def profileValue (d : EdgeData) (w : String) : Option ℚ :=
  if w = "normal" then some d.normal
  else if w = "rain" then some d.rain
  else if w = "snow" then some d.snow
  else if w = "storm" then some d.storm
  else none

/-- The dynamic lookup `times[weather]` in `add_connection`. -/
def timesValue (t : Times) (w : String) : Option ℚ :=
  if w = "normal" then some t.normal
  else if w = "rain" then some t.rain
  else if w = "snow" then some t.snow
  else if w = "storm" then some t.storm
  else none

/-- The weather names accepted by `set_weather`. -/
def validWeather : List String := ["normal", "rain", "snow", "storm"]

/-- `LogisticaGraph.set_weather`: rejects names outside the fixed set
(returning `False` and leaving the graph untouched); otherwise records
the new weather and reassigns every edge's `weight` from the matching
profile.  The `getD` default is never reached: the lookup key was just
validated. -/
def set_weather (g : LGraph) (w : String) : Bool × LGraph :=
  if validWeather.contains w then
    (true, { g with
      current_weather := w,
      edges := g.edges.map (fun e =>
        (e.1, e.2.1, { e.2.2 with weight := (profileValue e.2.2 w).getD e.2.2.weight })) })
  else
    (false, g)

/-- `LogisticaGraph.add_city`: fails (returns `False`) when the name is
already present, otherwise adds the node. -/
def add_city (g : LGraph) (n : String) : Bool × LGraph :=
  if g.nodes.contains n then (false, g)
  else (true, { g with nodes := g.nodes ++ [n] })

/-- `LogisticaGraph.add_connection`: creates missing endpoint cities,
then upserts the edge with the four profiles and
`weight = times[self.current_weather]`.  Always returns `True`.  The
`getD 0` models the dynamic lookup, whose key is the graph's current
weather (always one of the four for graphs built through the public
API). -/
def add_connection (g : LGraph) (from_city to_city : String) (t : Times) :
    Bool × LGraph :=
  let g1 := if hasNode g from_city then g else (add_city g from_city).2
  let g2 := if hasNode g1 to_city then g1 else (add_city g1 to_city).2
  (true, addEdge g2 from_city to_city
    ⟨t.normal, t.rain, t.snow, t.storm, (timesValue t g.current_weather).getD 0⟩)

/-- One record of `LogisticaGraph.load_from_file` (a line with at least
six whitespace-separated fields, already parsed): adds missing endpoint
nodes and inserts the edge with `weight = normal_time` (the code's
"peso por defecto"), independent of the current weather selection. -/
def loadRecord (g : LGraph) (from_city to_city : String)
    (normal_time rain_time snow_time storm_time : ℚ) : LGraph :=
  let g1 := if hasNode g from_city then g else addNode g from_city
  let g2 := if hasNode g1 to_city then g1 else addNode g1 to_city
  addEdge g2 from_city to_city
    ⟨normal_time, rain_time, snow_time, storm_time, normal_time⟩

/-- The spec's edge/weather invariant: every edge's active `weight`
equals the profile value selected by the graph's current weather. -/
abbrev WeatherInvariant (g : LGraph) : Prop :=
  ∀ e ∈ g.edges, profileValue e.2.2 g.current_weather = some e.2.2.weight

/-! ## Model of the `networkx` query routines used by `algorithms.py` -/

/-- Out-neighbours of `u`, in edge insertion order. -/
def successors (g : LGraph) (u : String) : List String :=
  g.edges.filterMap (fun e => if e.1 = u then some e.2.1 else none)

/-- All simple paths from `u` to `t` avoiding `visited`, bounded by
`fuel` (instantiated with the node count, enough for every simple
path).  Neighbours are explored in edge insertion order. -/
def pathsAux (g : LGraph) (t : String) : Nat → String → List String → List (List String)
  | 0, _, _ => []
  | fuel + 1, u, visited =>
    if u = t then [[t]]
    else
      ((successors g u).filter (fun v => !visited.contains v)).flatMap
        (fun v => (pathsAux g t fuel v (v :: visited)).map (fun p => u :: p))

/-- All simple paths from `s` to `t` in `g`. -/
def allSimplePaths (g : LGraph) (s t : String) : List (List String) :=
  pathsAux g t (g.nodes.length + 1) s [s]

/-- Total `weight` of the consecutive edges of a node sequence. -/
def pathWeight (g : LGraph) : List String → ℚ
  | u :: v :: rest => edgeWeight g u v + pathWeight g (v :: rest)
  | _ => 0

/-- First element of minimal `pathWeight` among a list of paths. -/
def minCostPath (g : LGraph) : List (List String) → Option (List String)
  | [] => none
  | p :: ps => some (ps.foldl (fun best q =>
      if pathWeight g q < pathWeight g best then q else best) p)

/-- Model of `nx.shortest_path(g, source, target, weight='weight')`
(Dijkstra): a path of minimal total weight from `s` to `t`, or `none`
when no path exists (the `nx.NetworkXNoPath` exception). -/
def nxShortestPath (g : LGraph) (s t : String) : Option (List String) :=
  minCostPath g (allSimplePaths g s t)

/-- Model of `nx.shortest_path_length(g, source, target,
weight='weight')`: the minimal total weight, or `none` when no path
exists. -/
def nxShortestPathLength (g : LGraph) (s t : String) : Option ℚ :=
  ((allSimplePaths g s t).map (pathWeight g)).min?

/-! ## `algorithms.py` -/

/-- The cost loop of `shortest_path`:
`for i in range(len(path) - 1): total += graph[path[i]][path[i+1]]['weight']`. -/
def total_distance (g : LGraph) (path : List String) : ℚ :=
  (List.range (path.length - 1)).foldl
    (fun acc i => acc + edgeWeight g (path.getD i "") (path.getD (i + 1) "")) 0

/-- `algorithms.shortest_path`: `(None, None)` when either endpoint is
missing, `(None, None)` on `nx.NetworkXNoPath`, otherwise the path
found by `nx.shortest_path` together with the total distance recomputed
edge by edge. -/
def shortest_path (g : LGraph) (start target : String) :
    Option (List String) × Option ℚ :=
  if !hasNode g start || !hasNode g target then (none, none)
  else
    match nxShortestPath g start target with
    | none => (none, none)
    | some path => (some path, some (total_distance g path))

/-- The nested `defaultdict` of `nx.floyd_warshall`, as an association
list read through `lookupDist` (first match wins, missing pairs default
to `inf`).  `⊤` is the `float('inf')` sentinel. -/
abbrev DistTable : Type := List ((String × String) × WithTop ℚ)

/-- Reading `dist[u][v]`: first entry for the pair, `inf` by default. -/
def lookupDist (tbl : DistTable) (u v : String) : WithTop ℚ :=
  ((tbl.find? (fun p => p.1.1 = u && p.1.2 = v)).map (fun p => p.2)).getD ⊤

/-- Writing `dist[u][v] = x`: a shadowing entry in front. -/
def setDist (tbl : DistTable) (u v : String) (x : WithTop ℚ) : DistTable :=
  ((u, v), x) :: tbl

/-- Initial table of `nx.floyd_warshall`: `dist[u][u] = 0` for every
node, then `dist[u][v] = min(weight(u, v), dist[u][v])` for every
edge. -/
def fwInit (g : LGraph) : DistTable :=
  g.edges.foldl
    (fun tbl e => setDist tbl e.1 e.2.1
      (min (e.2.2.weight : WithTop ℚ) (lookupDist tbl e.1 e.2.1)))
    (g.nodes.map (fun u => ((u, u), (0 : WithTop ℚ))))

/-- The triple relaxation loop of `nx.floyd_warshall`. -/
def fwRelax (nodes : List String) (tbl0 : DistTable) : DistTable :=
  nodes.foldl (fun tbl w =>
    nodes.foldl (fun tbl u =>
      nodes.foldl (fun tbl v =>
        if lookupDist tbl u w + lookupDist tbl w v < lookupDist tbl u v
        then setDist tbl u v (lookupDist tbl u w + lookupDist tbl w v) else tbl)
      tbl)
    tbl)
  tbl0

/-- Model of `nx.floyd_warshall(g, weight='weight')` as a distance
function. -/
def fwDist (g : LGraph) (u v : String) : WithTop ℚ :=
  lookupDist (fwRelax g.nodes (fwInit g)) u v

/-- `algorithms.all_pairs_shortest_paths`: the dense result mapping of
`nx.floyd_warshall`, one entry per ordered pair of nodes. -/
def all_pairs_shortest_paths (g : LGraph) : List (String × String × WithTop ℚ) :=
  g.nodes.flatMap (fun u => g.nodes.map (fun v => (u, v, fwDist g u v)))

/-- Executable reachability: the set of nodes reachable from `u`,
obtained by expanding successor sets `|nodes|` times (enough to close
the relation). -/
def reachSet (g : LGraph) (u : String) : List String :=
  (List.range g.nodes.length).foldl
    (fun acc _ => (acc ++ acc.flatMap (successors g)).dedup) [u]

/-- `v` is reachable from `u` along directed edges. -/
def reachb (g : LGraph) (u v : String) : Bool := (reachSet g u).contains v

/-- Model of `nx.is_strongly_connected`: every ordered pair of nodes is
connected by a directed path (`nx` raises on the empty graph, which the
repository never queries; here the empty graph counts as strongly
connected, which keeps it outside `find_center`'s restriction branch
exactly as in the original). -/
def is_strongly_connected (g : LGraph) : Bool :=
  g.nodes.all (fun u => g.nodes.all (fun v => reachb g u v))

/-- The strongly connected component of `u`: all graph nodes mutually
reachable with `u`, in node insertion order. -/
def sccOf (g : LGraph) (u : String) : List String :=
  g.nodes.filter (fun v => reachb g u v && reachb g v u)

/-- Model of `list(nx.strongly_connected_components(g))`: the distinct
strongly connected components.  The enumeration order follows node
insertion order (the library's own order differs, but no repository
behaviour verified here depends on which maximal component is chosen
when several tie). -/
def sccs (g : LGraph) : List (List String) :=
  g.nodes.foldl
    (fun acc u => if acc.any (fun c => c.contains u) then acc else acc ++ [sccOf g u])
    []

/-- Python's `max(components, key=len)`: first component of maximal
length. -/
def maxByLen : List (List String) → Option (List String)
  | [] => none
  | c :: cs => some (cs.foldl (fun best x =>
      if x.length > best.length then x else best) c)

/-- `graph.subgraph(keep).copy()`: the node-induced subgraph, node and
edge order inherited from `g`. -/
def subgraphOn (g : LGraph) (keep : List String) : LGraph :=
  { nodes := g.nodes.filter (fun n => keep.contains n),
    edges := g.edges.filter (fun e => keep.contains e.1 && keep.contains e.2.1),
    current_weather := g.current_weather }

/-- The eccentricity loop of `find_center`: maximum shortest-path
distance from `node` to every other node, starting from 0 and skipping
unreachable targets. -/
def eccentricity (g : LGraph) (node : String) : ℚ :=
  g.nodes.foldl
    (fun maxd t =>
      if node ≠ t then
        match nxShortestPathLength g node t with
        | some d => max maxd d
        | none => maxd
      else maxd)
    0

/-- Python's `min(items, key=lambda x: x[1])` over a nonempty association
list: first pair of minimal value. -/
def minByVal (x : String × ℚ) (l : List (String × ℚ)) : String × ℚ :=
  l.foldl (fun best p => if p.2 < best.2 then p else best) x

/-- `algorithms.find_center`: restricts to (a copy of the subgraph on)
the largest strongly connected component when the graph is not strongly
connected, computes every node's eccentricity, and returns the node of
minimal eccentricity (`None` when the eccentricity dictionary is
empty).  The `none` fallback of `maxByLen` is unreachable: a graph that
fails the strong-connectivity test has at least one node, hence at
least one component. -/
def find_center (g : LGraph) : Option String :=
  let sub :=
    if is_strongly_connected g then g
    else
      match maxByLen (sccs g) with
      | some largest => subgraphOn g largest
      | none => g
  match sub.nodes.map (fun n => (n, eccentricity sub n)) with
  | [] => none
  | x :: xs => some (minByVal x xs).1

/-- `algorithms.get_adjacency_matrix`: rows/columns indexed by the
lexicographically sorted node list; every cell starts at `inf`, the
diagonal cell is set to 0, then every existing direct edge overwrites
its cell with the active weight (a self-loop therefore overwrites the
diagonal 0). -/
def get_adjacency_matrix (g : LGraph) :
    List (List (WithTop ℚ)) × List String :=
  let nodes := g.nodes.mergeSort (fun a b => a ≤ b)
  (nodes.enum.map (fun p =>
     nodes.enum.map (fun q =>
       if hasEdge g p.2 q.2 then ((edgeWeight g p.2 q.2 : ℚ) : WithTop ℚ)
       else if p.1 = q.1 then 0 else ⊤)),
   nodes)

/-! ## Reachability along directed edges -/

/-- `v` is reachable from `u` along directed edges of `g` (the notion of
"a directed path exists" used to state unreachability). -/
inductive Reaches (g : LGraph) : String → String → Prop
  | refl (u : String) : Reaches g u u
  | step {u v w : String} : hasEdge g u v = true → Reaches g v w → Reaches g u w

/-- The weather names form a valid selection. -/
abbrev ValidWeather (w : String) : Prop := w ∈ validWeather

/-! ## State-passing form of the query operations (for frame effects)

Each `networkx` call made by `algorithms.py` is a read-only query: it
returns its result together with the graph it leaves behind, which for
the library's query functions is the input graph itself (documented
`networkx` behaviour; `subgraph(...).copy()` builds a fresh graph
object and hands it back without touching the original).  The
repository functions are then compiled statement by statement over
these primitives, so that any mutation of the input graph would have to
show up in the returned state. -/

/-- `nx.shortest_path` as a stateful read. -/
def nxShortestPathS (g : LGraph) (s t : String) :
    Option (List String) × LGraph := (nxShortestPath g s t, g)

/-- `graph[u][v]['weight']` as a stateful read. -/
def edgeWeightS (g : LGraph) (u v : String) : ℚ × LGraph := (edgeWeight g u v, g)

/-- `graph.nodes` as a stateful read. -/
def nodesS (g : LGraph) : List String × LGraph := (g.nodes, g)

/-- `graph.has_edge` as a stateful read. -/
def hasEdgeS (g : LGraph) (u v : String) : Bool × LGraph := (hasEdge g u v, g)

/-- The cost loop of `shortest_path`, threading the graph state. -/
def total_distanceS (g : LGraph) (path : List String) : ℚ × LGraph :=
  (List.range (path.length - 1)).foldl
    (fun s i =>
      let w := edgeWeightS s.2 (path.getD i "") (path.getD (i + 1) "")
      (s.1 + w.1, w.2))
    (0, g)

/-- `algorithms.shortest_path`, threading the graph state. -/
def shortest_pathS (g : LGraph) (start target : String) :
    (Option (List String) × Option ℚ) × LGraph :=
  let ns := nodesS g
  if !ns.1.contains start || !ns.1.contains target then ((none, none), ns.2)
  else
    let sp := nxShortestPathS ns.2 start target
    match sp.1 with
    | none => ((none, none), sp.2)
    | some path =>
      let td := total_distanceS sp.2 path
      ((some path, some td.1), td.2)

/-- `nx.floyd_warshall` as a stateful read. -/
def floydWarshallS (g : LGraph) : DistTable × LGraph :=
  (fwRelax g.nodes (fwInit g), g)

/-- `algorithms.all_pairs_shortest_paths`, threading the graph state. -/
def all_pairs_shortest_pathsS (g : LGraph) :
    List (String × String × WithTop ℚ) × LGraph :=
  let fw := floydWarshallS g
  ((fw.2.nodes.flatMap (fun u => fw.2.nodes.map (fun v => (u, v, lookupDist fw.1 u v)))),
   fw.2)

/-- `nx.is_strongly_connected` as a stateful read. -/
def isStronglyConnectedS (g : LGraph) : Bool × LGraph :=
  (is_strongly_connected g, g)

/-- `nx.strongly_connected_components` as a stateful read. -/
def sccsS (g : LGraph) : List (List String) × LGraph := (sccs g, g)

/-- `graph.subgraph(keep).copy()` as a stateful read: the induced
subgraph is a fresh value, the original graph is returned unchanged. -/
def subgraphCopyS (g : LGraph) (keep : List String) : LGraph × LGraph :=
  (subgraphOn g keep, g)

/-- `nx.shortest_path_length` as a stateful read. -/
def nxShortestPathLengthS (g : LGraph) (s t : String) : Option ℚ × LGraph :=
  (nxShortestPathLength g s t, g)

/-- The eccentricity loop of `find_center`, threading the state of the
graph it queries (the subgraph copy, or the input itself when it is
strongly connected). -/
def eccentricityS (g : LGraph) (node : String) : ℚ × LGraph :=
  g.nodes.foldl
    (fun s t =>
      if node ≠ t then
        let d := nxShortestPathLengthS s.2 node t
        match d.1 with
        | some x => (max s.1 x, d.2)
        | none => (s.1, d.2)
      else s)
    (0, g)

/-- `algorithms.find_center`, threading the state of the input graph.
In the strongly connected branch the eccentricity loop queries the
input graph itself; in the other branch it queries the subgraph copy
and the input graph is only read. -/
def find_centerS (g : LGraph) : Option String × LGraph :=
  let sc := isStronglyConnectedS g
  if sc.1 then
    let ecc := sc.2.nodes.foldl
      (fun s n =>
        let e := eccentricityS s.2 n
        (s.1 ++ [(n, e.1)], e.2))
      (([] : List (String × ℚ)), sc.2)
    match ecc.1 with
    | [] => (none, ecc.2)
    | x :: xs => (some (minByVal x xs).1, ecc.2)
  else
    let comps := sccsS sc.2
    match maxByLen comps.1 with
    | some largest =>
      let sub := subgraphCopyS comps.2 largest
      let ecc := sub.1.nodes.foldl
        (fun s n =>
          let e := eccentricityS s.2 n
          (s.1 ++ [(n, e.1)], e.2))
        (([] : List (String × ℚ)), sub.1)
      (match ecc.1 with
       | [] => none
       | x :: xs => some (minByVal x xs).1, sub.2)
    | none => (none, comps.2)

/-- `algorithms.get_adjacency_matrix`, threading the graph state: the
matrix is assembled from `has_edge` and weight reads only. -/
def get_adjacency_matrixS (g : LGraph) :
    (List (List (WithTop ℚ)) × List String) × LGraph :=
  let ns := nodesS g
  let nodes := ns.1.mergeSort (fun a b => a ≤ b)
  ((nodes.enum.map (fun p =>
      nodes.enum.map (fun q =>
        if (hasEdgeS ns.2 p.2 q.2).1
        then (((edgeWeightS ns.2 p.2 q.2).1 : ℚ) : WithTop ℚ)
        else if p.1 = q.1 then 0 else ⊤)),
    nodes),
   ns.2)

/-! ## Concrete inputs -/

/-- The four-record test fixture of `tests/test_graph.py`, loaded
record by record exactly as `load_from_file` does. -/
def sampleGraph : LGraph :=
  loadRecord (loadRecord (loadRecord
    (loadRecord LGraph.init "A" "B" 5 8 10 15)
    "B" "C" 3 4 6 9) "C" "D" 2 3 5 8) "A" "D" 15 20 25 30

/-- The same fixture after `set_weather("rain")`. -/
def sampleRain : LGraph := (set_weather sampleGraph "rain").2

/-- A graph whose weather is set to `"rain"` before a record is loaded:
the loader still stores `weight = normal_time`. -/
def rainThenLoad : LGraph :=
  loadRecord (set_weather LGraph.init "rain").2 "A" "B" 5 8 10 15

/-- A two-node graph with the single edge `A -> B`. -/
def oneEdgeGraph : LGraph :=
  (add_connection LGraph.init "A" "B" ⟨1, 1, 1, 1⟩).2

/-- A graph with a self-loop at its only node. -/
def selfLoopGraph : LGraph := loadRecord LGraph.init "A" "A" 5 6 7 8

/-- A graph with a single node and no edges. -/
def oneNodeGraph : LGraph := (add_city LGraph.init "A").2

/-- A `times` dictionary holding a negative weight. -/
def negTimes : Times := ⟨-5, -5, -5, -5⟩

/-- Two mutually connected nodes plus an isolated third node: not
strongly connected, largest strongly connected component `{x, y}`. -/
def twoSccGraph : LGraph :=
  (add_city (add_connection
    (add_connection LGraph.init "x" "y" ⟨1, 2, 3, 4⟩).2
    "y" "x" ⟨1, 2, 3, 4⟩).2 "z").2

/-! ## Helper lemmas -/

theorem foldl_inv {α σ : Type _} (P : σ → Prop) (f : σ → α → σ) :
    ∀ (l : List α) (init : σ), P init →
      (∀ s a, a ∈ l → P s → P (f s a)) → P (l.foldl f init) := by
  intro l
  induction l with
  | nil => intro init h0 _; exact h0
  | cons a l ih =>
    intro init h0 hstep
    exact ih (f init a) (hstep init a (List.mem_cons_self a l) h0)
      (fun s b hb hs => hstep s b (List.mem_cons_of_mem a hb) hs)

theorem reaches_trans {g : LGraph} {a b c : String}
    (h1 : Reaches g a b) (h2 : Reaches g b c) : Reaches g a c := by
  induction h1 with
  | refl _ => exact h2
  | step he _ ih => exact Reaches.step he (ih h2)

theorem add_city_edges (g : LGraph) (n : String) :
    ((add_city g n).2).edges = g.edges := by
  unfold add_city; split <;> rfl

theorem add_city_weather (g : LGraph) (n : String) :
    ((add_city g n).2).current_weather = g.current_weather := by
  unfold add_city; split <;> rfl

theorem addNode_edges (g : LGraph) (n : String) :
    (addNode g n).edges = g.edges := by
  unfold addNode; split <;> rfl

theorem addNode_weather (g : LGraph) (n : String) :
    (addNode g n).current_weather = g.current_weather := by
  unfold addNode; split <;> rfl

theorem addEdge_weather (g : LGraph) (u v : String) (d : EdgeData) :
    (addEdge g u v d).current_weather = g.current_weather := by
  simp only [addEdge]
  split <;> simp [addNode_weather]

theorem mem_edges_addEdge {g : LGraph} {u v : String} {d : EdgeData}
    {e : String × String × EdgeData} (he : e ∈ (addEdge g u v d).edges) :
    e = (u, v, d) ∨ e ∈ g.edges := by
  simp only [addEdge] at he
  split at he
  · simp only [List.mem_map] at he
    obtain ⟨e0, he0, hf⟩ := he
    rw [addNode_edges, addNode_edges] at he0
    by_cases hm : (e0.1 = u && e0.2.1 = v) = true
    · rw [if_pos hm] at hf; exact Or.inl hf.symm
    · rw [if_neg hm] at hf; exact Or.inr (hf ▸ he0)
  · simp only [List.mem_append, List.mem_singleton] at he
    rw [addNode_edges, addNode_edges] at he
    rcases he with h | h
    · exact Or.inr h
    · exact Or.inl h

theorem weatherInv_addEdge {g : LGraph} {u v : String} {d : EdgeData}
    (hg : WeatherInvariant g)
    (hd : profileValue d g.current_weather = some d.weight) :
    WeatherInvariant (addEdge g u v d) := by
  intro e he
  rw [addEdge_weather]
  rcases mem_edges_addEdge he with rfl | h
  · exact hd
  · exact hg e h

/-! ## C8: invalid weather names are rejected without any state change -/

/-- C8: for every graph and every weather name outside
`{normal, rain, snow, storm}`, `set_weather` fails (returns `False`)
and the whole graph state — current weather, every edge's active
weight, every profile value — is exactly the state before the call. -/
theorem set_weather_invalid_noop (g : LGraph) (w : String)
    (h : ¬ ValidWeather w) : set_weather g w = (false, g) := by
  have hc : validWeather.contains w = false := by
    simpa [ValidWeather, List.contains_eq_any_beq, List.any_beq] using h
  unfold set_weather
  rw [hc]
  simp

/-- Witness for `set_weather_invalid_noop` at the concrete name
`"fog"`. -/
theorem set_weather_invalid_noop_witness :
    ¬ ValidWeather "fog" ∧ set_weather LGraph.init "fog" = (false, LGraph.init) :=
  ⟨by decide, set_weather_invalid_noop LGraph.init "fog" (by decide)⟩

/-! ## C4: the concrete four-node scenario -/

unseal Rat.add in
/-- C4: on the fixture graph A→B(5,8,10,15), B→C(3,4,6,9), C→D(2,3,5,8),
A→D(15,20,25,30), `shortest_path(A, D)` returns `([A,B,C,D], 10)` under
`normal` and `([A,B,C,D], 15)` under `rain`, preferring the indirect
path over the direct edge in both cases. -/
theorem sample_scenario_normal_and_rain :
    shortest_path sampleGraph "A" "D" = (some ["A", "B", "C", "D"], some 10) ∧
    shortest_path sampleRain "A" "D" = (some ["A", "B", "C", "D"], some 15) :=
  ⟨by decide, by decide⟩

/-! ## C2: the two failure kinds of `shortest_path` -/

/-- C2 counterexample: on the one-edge graph, the "no path" failure
(`B` to `A`, both nodes exist, no directed path) and the "unknown node"
failure (`Z` absent) produce the *same* return value `(None, None)`:
the two failure kinds are not distinguishable typed outcomes. -/
theorem failure_kinds_indistinguishable :
    hasNode oneEdgeGraph "A" = true ∧ hasNode oneEdgeGraph "B" = true ∧
    hasNode oneEdgeGraph "Z" = false ∧
    nxShortestPath oneEdgeGraph "B" "A" = none ∧
    shortest_path oneEdgeGraph "B" "A" = (none, none) ∧
    shortest_path oneEdgeGraph "Z" "A" = (none, none) ∧
    shortest_path oneEdgeGraph "B" "A" = shortest_path oneEdgeGraph "Z" "A" := by
  decide

/-- C2 (amended): `shortest_path` reports both failures — an absent
endpoint, and existing but disconnected endpoints — without raising,
but collapses them to the *same* untyped outcome `(None, None)`; the
two kinds are told apart only by printed messages, not by the value
returned to the caller. -/
theorem shortest_path_failure_is_none_none (g : LGraph) (s t : String) :
    ((hasNode g s = false ∨ hasNode g t = false) →
      shortest_path g s t = (none, none)) ∧
    (hasNode g s = true → hasNode g t = true →
      nxShortestPath g s t = none → shortest_path g s t = (none, none)) := by
  constructor
  · intro h
    unfold shortest_path
    rcases h with h | h <;> simp [h]
  · intro hs ht h
    unfold shortest_path
    simp [hs, ht, h]

/-- Witness for `shortest_path_failure_is_none_none` at concrete
inputs: an absent start node, and a disconnected existing pair. -/
theorem shortest_path_failure_witness :
    shortest_path oneEdgeGraph "Q" "A" = (none, none) ∧
    shortest_path oneEdgeGraph "B" "A" = (none, none) :=
  ⟨(shortest_path_failure_is_none_none oneEdgeGraph "Q" "A").1 (Or.inl (by decide)),
   (shortest_path_failure_is_none_none oneEdgeGraph "B" "A").2
     (by decide) (by decide) (by decide)⟩

/-! ## C1: the weather/weight invariant across mutating operations -/

/-- C1 counterexample: selecting `rain` and then loading a record
leaves the loaded edge's active weight at its `normal` profile value
(5) while the current selection is `rain` (profile value 8): the
invariant does not hold after `load_from_file`'s per-record insertion
under a non-default weather selection. -/
theorem load_after_rain_breaks_invariant :
    LGraph.current_weather rainThenLoad = "rain" ∧
    getEdgeData rainThenLoad "A" "B" = some ⟨5, 8, 10, 15, 5⟩ ∧
    ¬ WeatherInvariant rainThenLoad := by
  refine ⟨by decide, by decide, ?_⟩
  intro h
  have h2 := h ("A", "B", ⟨5, 8, 10, 15, 5⟩) (by decide)
  revert h2
  decide

theorem ite_add_city_edges (g : LGraph) (n : String) :
    (if hasNode g n then g else (add_city g n).2).edges = g.edges := by
  split
  · rfl
  · exact add_city_edges g n

theorem ite_add_city_weather (g : LGraph) (n : String) :
    (if hasNode g n then g else (add_city g n).2).current_weather =
      g.current_weather := by
  split
  · rfl
  · exact add_city_weather g n

theorem ite_addNode_edges (g : LGraph) (n : String) :
    (if hasNode g n then g else addNode g n).edges = g.edges := by
  split
  · rfl
  · exact addNode_edges g n

theorem ite_addNode_weather (g : LGraph) (n : String) :
    (if hasNode g n then g else addNode g n).current_weather =
      g.current_weather := by
  split
  · rfl
  · exact addNode_weather g n

/-- C1 (amended): after a successful `set_weather` every edge's active
weight matches the new selection; `add_connection` preserves the
invariant (its new edge's weight is read from the current selection,
one of the four profile names for any graph built through the public
API); `load_from_file`'s per-record insertion stores
`weight = normal_time` unconditionally, so it preserves the invariant
exactly when the current selection is `normal` — not for every
currently selected profile, as the counterexample shows. -/
theorem weather_invariant_after_mutations :
    (∀ (g : LGraph) (w : String), (set_weather g w).1 = true →
      WeatherInvariant (set_weather g w).2) ∧
    (∀ (g : LGraph) (fc tc : String) (t : Times),
      ValidWeather g.current_weather → WeatherInvariant g →
      WeatherInvariant (add_connection g fc tc t).2) ∧
    (∀ (g : LGraph) (fc tc : String) (nt rt st ot : ℚ),
      g.current_weather = "normal" → WeatherInvariant g →
      WeatherInvariant (loadRecord g fc tc nt rt st ot)) := by
  refine ⟨?_, ?_, ?_⟩
  · intro g w h
    unfold set_weather at h ⊢
    by_cases hc : validWeather.contains w = true
    · rw [if_pos hc] at h ⊢
      intro e he
      simp only [List.mem_map] at he
      obtain ⟨e0, _, rfl⟩ := he
      have hw : w = "normal" ∨ w = "rain" ∨ w = "snow" ∨ w = "storm" := by
        simpa [validWeather] using hc
      rcases hw with rfl | rfl | rfl | rfl <;> simp [profileValue]
    · rw [if_neg hc] at h
      exact absurd h (by simp)
  · intro g fc tc t hv hg
    simp only [add_connection]
    have e1 := ite_add_city_edges g fc
    have w1 := ite_add_city_weather g fc
    generalize hG1 : (if hasNode g fc then g else (add_city g fc).2) = G1 at e1 w1 ⊢
    have e2 := ite_add_city_edges G1 tc
    have w2 := ite_add_city_weather G1 tc
    generalize hG2 : (if hasNode G1 tc then G1 else (add_city G1 tc).2) = G2 at e2 w2 ⊢
    apply weatherInv_addEdge
    · intro e he
      rw [w2, w1]
      rw [e2, e1] at he
      exact hg e he
    · rw [w2, w1]
      have hw : g.current_weather = "normal" ∨ g.current_weather = "rain" ∨
          g.current_weather = "snow" ∨ g.current_weather = "storm" := by
        simpa [validWeather, ValidWeather] using hv
      rcases hw with hw | hw | hw | hw <;> rw [hw] <;> simp [profileValue, timesValue]
  · intro g fc tc nt rt st ot hn hg
    simp only [loadRecord]
    have e1 := ite_addNode_edges g fc
    have w1 := ite_addNode_weather g fc
    generalize hG1 : (if hasNode g fc then g else addNode g fc) = G1 at e1 w1 ⊢
    have e2 := ite_addNode_edges G1 tc
    have w2 := ite_addNode_weather G1 tc
    generalize hG2 : (if hasNode G1 tc then G1 else addNode G1 tc) = G2 at e2 w2 ⊢
    apply weatherInv_addEdge
    · intro e he
      rw [w2, w1]
      rw [e2, e1] at he
      exact hg e he
    · rw [w2, w1, hn]
      simp [profileValue]

/-- Witness for `weather_invariant_after_mutations` at concrete
inputs. -/
theorem weather_invariant_after_mutations_witness :
    WeatherInvariant (set_weather sampleGraph "snow").2 ∧
    WeatherInvariant (add_connection oneEdgeGraph "B" "C" ⟨2, 3, 4, 5⟩).2 ∧
    WeatherInvariant (loadRecord oneEdgeGraph "B" "C" 2 3 4 5) :=
  ⟨weather_invariant_after_mutations.1 sampleGraph "snow" (by decide),
   weather_invariant_after_mutations.2.1 oneEdgeGraph "B" "C" ⟨2, 3, 4, 5⟩
     (by decide) (by decide),
   weather_invariant_after_mutations.2.2 oneEdgeGraph "B" "C" 2 3 4 5
     (by decide) (by decide)⟩

/-! ## C9: negative weights -/

theorem find_replace (u v : String) (d : EdgeData) :
    ∀ l : List (String × String × EdgeData),
      l.any (fun e => e.1 = u && e.2.1 = v) = true →
      (l.map (fun e => if e.1 = u && e.2.1 = v then (u, v, d) else e)).find?
        (fun e => e.1 = u && e.2.1 = v) = some (u, v, d) := by
  intro l
  induction l with
  | nil => intro h; simp at h
  | cons e l ih =>
    intro h
    by_cases he : (e.1 = u && e.2.1 = v) = true
    · simp only [List.map_cons, if_pos he]
      rw [List.find?_cons_of_pos _ (by simp)]
    · simp only [List.map_cons, if_neg he]
      rw [List.find?_cons_of_neg _ (by simpa using he)]
      apply ih
      rw [List.any_cons] at h
      simpa [he] using h

theorem find_append_new (u v : String) (d : EdgeData) :
    ∀ l : List (String × String × EdgeData),
      l.any (fun e => e.1 = u && e.2.1 = v) = false →
      (l ++ [(u, v, d)]).find? (fun e => e.1 = u && e.2.1 = v) =
        some (u, v, d) := by
  intro l
  induction l with
  | nil => intro _; simp
  | cons e l ih =>
    intro h
    rw [List.any_cons] at h
    have h1 : (e.1 = u && e.2.1 = v) = false := by
      cases hp : (e.1 = u && e.2.1 = v : Bool)
      · rfl
      · rw [hp] at h; simp at h
    rw [List.cons_append, List.find?_cons_of_neg _ (by simpa using h1)]
    apply ih
    simpa [h1] using h

theorem hasEdge_addNode (g : LGraph) (n u v : String) :
    hasEdge (addNode g n) u v = hasEdge g u v := by
  unfold hasEdge
  rw [addNode_edges]

theorem getEdgeData_addEdge (g : LGraph) (u v : String) (d : EdgeData) :
    getEdgeData (addEdge g u v d) u v = some d := by
  simp only [addEdge, getEdgeData]
  split
  · next h =>
    rw [hasEdge_addNode, hasEdge_addNode] at h
    dsimp only
    rw [addNode_edges, addNode_edges]
    rw [find_replace u v d g.edges h]
    rfl
  · next h =>
    rw [hasEdge_addNode, hasEdge_addNode] at h
    dsimp only
    rw [addNode_edges, addNode_edges]
    rw [find_append_new u v d g.edges (by rw [Bool.not_eq_true] at h; exact h)]
    rfl

/-- C9 counterexample: a connection whose every profile is `-5` is
accepted (`add_connection` returns `True`), stored verbatim, and leaves
the edge's active weight negative — no `NegativeWeight` rejection
exists anywhere in the implementation. -/
theorem negative_weight_accepted :
    (add_connection LGraph.init "A" "B" negTimes).1 = true ∧
    getEdgeData (add_connection LGraph.init "A" "B" negTimes).2 "A" "B" =
      some ⟨-5, -5, -5, -5, -5⟩ ∧
    edgeWeight (add_connection LGraph.init "A" "B" negTimes).2 "A" "B" < 0 := by
  decide

/-- C9 (amended): the implementation never rejects a negative weight:
for every graph and every `times` dictionary — including ones with
negative entries — `add_connection` reports success and stores the
profiles verbatim, with the active weight read from the current
selection; computations then run over the stored values unchecked. -/
theorem add_connection_accepts_any_weights (g : LGraph) (fc tc : String)
    (t : Times) :
    (add_connection g fc tc t).1 = true ∧
    getEdgeData (add_connection g fc tc t).2 fc tc =
      some ⟨t.normal, t.rain, t.snow, t.storm,
        (timesValue t g.current_weather).getD 0⟩ := by
  constructor
  · rfl
  · simp only [add_connection]
    exact getEdgeData_addEdge _ fc tc _

/-! ## C3: the returned cost is the edge-by-edge sum along the path -/

theorem range_foldl_weights (g : LGraph) :
    ∀ (p : List String) (a : ℚ),
      (List.range (p.length - 1)).foldl
        (fun acc i => acc + edgeWeight g (p.getD i "") (p.getD (i + 1) "")) a =
        a + pathWeight g p := by
  intro p
  induction p with
  | nil => intro a; simp [pathWeight]
  | cons u q ih =>
    cases q with
    | nil => intro a; simp [pathWeight]
    | cons v rest =>
      intro a
      have hlen : (u :: v :: rest).length - 1 = rest.length + 1 := rfl
      rw [hlen, List.range_succ_eq_map, List.foldl_cons, List.foldl_map]
      have hfun :
          (List.range rest.length).foldl
            (fun acc i => acc +
              edgeWeight g ((u :: v :: rest).getD (Nat.succ i) "")
                ((u :: v :: rest).getD (Nat.succ i + 1) ""))
            (a + edgeWeight g ((u :: v :: rest).getD 0 "")
              ((u :: v :: rest).getD 1 "")) =
          (List.range ((v :: rest).length - 1)).foldl
            (fun acc i => acc +
              edgeWeight g ((v :: rest).getD i "") ((v :: rest).getD (i + 1) ""))
            (a + edgeWeight g u v) := rfl
      rw [hfun, ih]
      show a + edgeWeight g u v + pathWeight g (v :: rest) =
        a + (edgeWeight g u v + pathWeight g (v :: rest))
      rw [add_assoc]

theorem total_distance_eq_pathWeight (g : LGraph) (p : List String) :
    total_distance g p = pathWeight g p := by
  unfold total_distance
  rw [range_foldl_weights g p 0, zero_add]

/-- C3: whenever `shortest_path` succeeds with a path and a cost, the
cost equals the sum of the active `weight` attributes of the
consecutive edges along the returned path (the code recomputes it edge
by edge in a loop rather than reusing a distance label; the loop's
indexed accumulation equals the structural edge-by-edge sum). -/
theorem shortest_path_cost_recomputed (g : LGraph) (s t : String)
    (p : List String) (c : ℚ)
    (h : shortest_path g s t = (some p, some c)) :
    c = pathWeight g p := by
  unfold shortest_path at h
  split at h
  · simp at h
  · split at h
    · simp at h
    · next path heq =>
      simp only [Prod.mk.injEq, Option.some.injEq] at h
      obtain ⟨h1, h2⟩ := h
      subst h1
      rw [← h2, total_distance_eq_pathWeight]

unseal Rat.add in
/-- Witness for `shortest_path_cost_recomputed` on the fixture graph:
the returned cost 10 is the recomputed edge sum of `[A, B, C, D]`. -/
theorem shortest_path_cost_recomputed_witness :
    (10 : ℚ) = pathWeight sampleGraph ["A", "B", "C", "D"] :=
  shortest_path_cost_recomputed sampleGraph "A" "D" ["A", "B", "C", "D"] 10
    (by decide)

/-! ## C7: the adjacency matrix -/

unseal List.merge List.mergeSort in
/-- C7 counterexample: on the graph with the single self-loop
`A -> A` (normal weight 5), the adjacency matrix's diagonal cell is the
self-loop's active weight 5, not 0: the code writes the diagonal 0
first and the edge loop then overwrites it. -/
theorem self_loop_diagonal_not_zero :
    (get_adjacency_matrix selfLoopGraph).2 = ["A"] ∧
    (get_adjacency_matrix selfLoopGraph).1 = [[((5 : ℚ) : WithTop ℚ)]] ∧
    ((5 : ℚ) : WithTop ℚ) ≠ 0 :=
  ⟨rfl, rfl, by decide⟩

/-- C7 (amended): `get_adjacency_matrix` returns the lexicographically
sorted node list as row/column order; cell `(i, j)` is the active
weight of the direct edge `i -> j` when it exists and the infinity
sentinel when it does not (for `i = j` and no self-loop, the cell is
0) — a direct-edge matrix, not a shortest-distance matrix.  The
diagonal, however, is 0 only in the absence of a self-loop: an existing
self-loop edge overwrites the diagonal 0 with its active weight, as the
counterexample shows. -/
theorem adjacency_matrix_characterization (g : LGraph) :
    ((get_adjacency_matrix g).2.Sorted (· ≤ ·)) ∧
    ((get_adjacency_matrix g).2.Perm g.nodes) ∧
    (∀ i j, i < (get_adjacency_matrix g).2.length →
      j < (get_adjacency_matrix g).2.length →
      (((get_adjacency_matrix g).1.getD i []).getD j ⊤ =
        if hasEdge g ((get_adjacency_matrix g).2.getD i "")
            ((get_adjacency_matrix g).2.getD j "")
        then ((edgeWeight g ((get_adjacency_matrix g).2.getD i "")
            ((get_adjacency_matrix g).2.getD j "") : ℚ) : WithTop ℚ)
        else if i = j then 0 else ⊤)) ∧
    (∀ i, i < (get_adjacency_matrix g).2.length →
      hasEdge g ((get_adjacency_matrix g).2.getD i "")
        ((get_adjacency_matrix g).2.getD i "") = false →
      ((get_adjacency_matrix g).1.getD i []).getD i ⊤ = 0) := by
  simp only [get_adjacency_matrix]
  generalize hN : g.nodes.mergeSort (fun a b => a ≤ b) = nodes
  have h3 : ∀ i j, i < nodes.length → j < nodes.length →
      (((nodes.enum.map (fun p => nodes.enum.map (fun q =>
          if hasEdge g p.2 q.2 then ((edgeWeight g p.2 q.2 : ℚ) : WithTop ℚ)
          else if p.1 = q.1 then 0 else ⊤))).getD i []).getD j ⊤ =
        if hasEdge g (nodes.getD i "") (nodes.getD j "")
        then ((edgeWeight g (nodes.getD i "") (nodes.getD j "") : ℚ) : WithTop ℚ)
        else if i = j then 0 else ⊤) := by
    intro i j hi2 hj2
    have hgi : nodes.getD i "" = nodes[i] := by
      simp [List.getD_eq_getElem?_getD, List.getElem?_eq_getElem hi2]
    have hgj : nodes.getD j "" = nodes[j] := by
      simp [List.getD_eq_getElem?_getD, List.getElem?_eq_getElem hj2]
    have hrow : ((nodes.enum.map (fun p => nodes.enum.map (fun q =>
        if hasEdge g p.2 q.2 then ((edgeWeight g p.2 q.2 : ℚ) : WithTop ℚ)
        else if p.1 = q.1 then 0 else ⊤))).getD i []) =
        nodes.enum.map (fun q =>
          if hasEdge g nodes[i] q.2 then ((edgeWeight g nodes[i] q.2 : ℚ) : WithTop ℚ)
          else if i = q.1 then 0 else ⊤) := by
      simp [List.getD_eq_getElem?_getD, List.getElem?_map, List.enum,
        List.getElem?_enumFrom, List.getElem?_eq_getElem hi2]
    have hcell : (nodes.enum.map (fun q =>
        if hasEdge g nodes[i] q.2 then ((edgeWeight g nodes[i] q.2 : ℚ) : WithTop ℚ)
        else if i = q.1 then 0 else ⊤)).getD j ⊤ =
        if hasEdge g nodes[i] nodes[j] then ((edgeWeight g nodes[i] nodes[j] : ℚ) : WithTop ℚ)
        else if i = j then 0 else ⊤ := by
      simp [List.getD_eq_getElem?_getD, List.getElem?_map, List.enum,
        List.getElem?_enumFrom, List.getElem?_eq_getElem hj2]
    rw [hrow, hcell, hgi, hgj]
  refine ⟨?_, ?_, h3, ?_⟩
  · rw [← hN]; exact List.sorted_mergeSort' g.nodes
  · rw [← hN]; exact List.mergeSort_perm g.nodes _
  · intro i hi hno
    rw [h3 i i hi hi, hno]
    simp

unseal List.merge List.mergeSort in
/-- Witness for `adjacency_matrix_characterization` on the one-node
graph at cell (0, 0). -/
theorem adjacency_matrix_characterization_witness :
    ((((get_adjacency_matrix oneNodeGraph).1.getD 0 []).getD 0 ⊤ =
      if hasEdge oneNodeGraph ((get_adjacency_matrix oneNodeGraph).2.getD 0 "")
          ((get_adjacency_matrix oneNodeGraph).2.getD 0 "")
      then ((edgeWeight oneNodeGraph
          ((get_adjacency_matrix oneNodeGraph).2.getD 0 "")
          ((get_adjacency_matrix oneNodeGraph).2.getD 0 "") : ℚ) : WithTop ℚ)
      else if 0 = 0 then 0 else ⊤)) ∧
    (((get_adjacency_matrix oneNodeGraph).1.getD 0 []).getD 0 ⊤ = 0) := by
  refine ⟨(adjacency_matrix_characterization oneNodeGraph).2.2.1 0 0 ?_ ?_,
          (adjacency_matrix_characterization oneNodeGraph).2.2.2 0 ?_ ?_⟩ <;>
    decide

/-! ## C5: the all-pairs distance mapping -/

theorem lookup_setDist (tbl : DistTable) (u v a b : String) (x : WithTop ℚ) :
    lookupDist (setDist tbl u v x) a b =
      if u = a ∧ v = b then x else lookupDist tbl a b := by
  by_cases h : u = a ∧ v = b
  · obtain ⟨h1, h2⟩ := h
    subst h1; subst h2
    simp [lookupDist, setDist]
  · rw [if_neg h]
    unfold lookupDist setDist
    rw [List.find?_cons_of_neg _ (by simpa using h)]

theorem lookup_init (nodes : List String) (a b : String) :
    lookupDist (nodes.map (fun u => ((u, u), (0 : WithTop ℚ)))) a b =
      if a = b ∧ a ∈ nodes then 0 else ⊤ := by
  induction nodes with
  | nil => simp [lookupDist]
  | cons n ns ih =>
    show lookupDist (setDist (ns.map (fun u => ((u, u), (0 : WithTop ℚ)))) n n 0) a b = _
    rw [lookup_setDist, ih]
    by_cases h1 : n = a ∧ n = b
    · obtain ⟨rfl, h2⟩ := h1
      simp [← h2]
    · rw [if_neg h1]
      by_cases h2 : a = b ∧ a ∈ ns
      · rw [if_pos h2, if_pos ⟨h2.1, List.mem_cons_of_mem n h2.2⟩]
      · rw [if_neg h2, if_neg ?_]
        intro hc
        rcases List.mem_cons.mp hc.2 with h3 | h3
        · exact h1 ⟨h3.symm, h3.symm.trans hc.1⟩
        · exact h2 ⟨hc.1, h3⟩

theorem hasEdge_of_mem {g : LGraph} {e : String × String × EdgeData}
    (he : e ∈ g.edges) : hasEdge g e.1 e.2.1 = true := by
  unfold hasEdge
  rw [List.any_eq_true]
  exact ⟨e, he, by simp⟩

theorem fwRelax_inv (P : DistTable → Prop) (nodes : List String)
    (hstep : ∀ (tbl : DistTable) (u v w : String), P tbl →
      P (if lookupDist tbl u w + lookupDist tbl w v < lookupDist tbl u v
         then setDist tbl u v (lookupDist tbl u w + lookupDist tbl w v) else tbl))
    (tbl0 : DistTable) (h0 : P tbl0) : P (fwRelax nodes tbl0) := by
  unfold fwRelax
  apply foldl_inv P _ nodes tbl0 h0
  intro tbl w _ hw
  apply foldl_inv P _ nodes tbl hw
  intro tbl u _ hu
  apply foldl_inv P _ nodes tbl hu
  intro tbl v _ hv
  exact hstep tbl u v w hv

theorem fwInit_inv (P : DistTable → Prop) (g : LGraph)
    (h0 : P (g.nodes.map (fun u => ((u, u), (0 : WithTop ℚ)))))
    (hstep : ∀ (tbl : DistTable) (e : String × String × EdgeData), e ∈ g.edges →
      P tbl → P (setDist tbl e.1 e.2.1
        (min (e.2.2.weight : WithTop ℚ) (lookupDist tbl e.1 e.2.1)))) :
    P (fwInit g) := by
  unfold fwInit
  exact foldl_inv P _ g.edges _ h0 hstep

theorem fw_sound (g : LGraph) (u v : String)
    (h : fwDist g u v ≠ ⊤) : Reaches g u v := by
  refine (fwRelax_inv (fun tbl => ∀ a b, lookupDist tbl a b ≠ ⊤ → Reaches g a b)
      g.nodes ?_ (fwInit g) ?_) u v h
  · intro tbl x y w hP a b
    split
    · rw [lookup_setDist]
      split
      · next hxy =>
        obtain ⟨rfl, rfl⟩ := hxy
        intro hne
        rw [WithTop.add_ne_top] at hne
        exact reaches_trans (hP _ _ hne.1) (hP _ _ hne.2)
      · exact hP a b
    · exact hP a b
  · refine fwInit_inv
      (fun tbl => ∀ a b, lookupDist tbl a b ≠ ⊤ → Reaches g a b) g ?_ ?_
    · intro a b
      rw [lookup_init]
      split
      · next hc => intro _; exact hc.1 ▸ Reaches.refl a
      · intro hne; exact absurd rfl hne
    · intro tbl e he hP a b
      rw [lookup_setDist]
      split
      · next hxy =>
        obtain ⟨rfl, rfl⟩ := hxy
        intro _
        exact Reaches.step (hasEdge_of_mem he) (Reaches.refl _)
      · exact hP a b

theorem fw_diag_nonneg (g : LGraph)
    (hw : ∀ e ∈ g.edges, 0 ≤ e.2.2.weight) :
    (∀ a ∈ g.nodes, fwDist g a a = 0) ∧
    (∀ a b : String, 0 ≤ fwDist g a b) := by
  have hmain := fwRelax_inv
    (fun tbl => (∀ a ∈ g.nodes, lookupDist tbl a a = 0) ∧
      (∀ a b : String, 0 ≤ lookupDist tbl a b))
    g.nodes ?_ (fwInit g) ?_
  · exact ⟨fun a ha => hmain.1 a ha, fun a b => hmain.2 a b⟩
  · intro tbl x y w hQ
    split
    · next hc =>
      constructor
      · intro a ha
        rw [lookup_setDist]
        split
        · next hxy =>
          obtain ⟨rfl, h2⟩ := hxy
          exfalso
          rw [h2, hQ.1 x (h2 ▸ ha)] at hc
          exact absurd (add_nonneg (hQ.2 x w) (hQ.2 w x)) (not_le.mpr hc)
        · exact hQ.1 a ha
      · intro a b
        rw [lookup_setDist]
        split
        · exact add_nonneg (hQ.2 x w) (hQ.2 w y)
        · exact hQ.2 a b
    · exact hQ
  · refine fwInit_inv
      (fun tbl => (∀ a ∈ g.nodes, lookupDist tbl a a = 0) ∧
        (∀ a b : String, 0 ≤ lookupDist tbl a b)) g ?_ ?_
    · constructor
      · intro a ha
        rw [lookup_init, if_pos ⟨rfl, ha⟩]
      · intro a b
        rw [lookup_init]
        split
        · exact le_refl 0
        · exact le_top
    · intro tbl e he hQ
      have hwe : (0 : WithTop ℚ) ≤ (e.2.2.weight : WithTop ℚ) := by
        exact_mod_cast hw e he
      constructor
      · intro a ha
        rw [lookup_setDist]
        split
        · next hxy =>
          obtain ⟨h1, h2⟩ := hxy
          rw [h1, h2, hQ.1 a ha]
          exact min_eq_right hwe
        · exact hQ.1 a ha
      · intro a b
        rw [lookup_setDist]
        split
        · exact le_min hwe (hQ.2 e.1 e.2.1)
        · exact hQ.2 a b

/-- C5: for every graph (whose weights are non-negative, as the data
model guarantees), the Floyd-Warshall result of
`all_pairs_shortest_paths` has an entry for every ordered pair of
nodes, the entry for `(u, u)` is 0 for every node `u`, and every pair
with no directed path is mapped to the positive-infinity sentinel
rather than omitted. -/
theorem all_pairs_dense_zero_diag_unreachable_top (g : LGraph)
    (hw : ∀ e ∈ g.edges, 0 ≤ e.2.2.weight) :
    (∀ u ∈ g.nodes, ∀ v ∈ g.nodes,
      (u, v, fwDist g u v) ∈ all_pairs_shortest_paths g) ∧
    (∀ u ∈ g.nodes, fwDist g u u = 0) ∧
    (∀ u v : String, ¬ Reaches g u v → fwDist g u v = ⊤) := by
  refine ⟨?_, (fw_diag_nonneg g hw).1, ?_⟩
  · intro u hu v hv
    unfold all_pairs_shortest_paths
    rw [List.mem_flatMap]
    exact ⟨u, hu, List.mem_map.mpr ⟨v, hv, rfl⟩⟩
  · intro u v hur
    by_contra hne
    exact hur (fw_sound g u v hne)

/-- Witness for `all_pairs_dense_zero_diag_unreachable_top` on the
concrete one-edge graph. -/
theorem all_pairs_witness :
    (∀ e ∈ oneEdgeGraph.edges, 0 ≤ e.2.2.weight) ∧
    ((∀ u ∈ oneEdgeGraph.nodes, ∀ v ∈ oneEdgeGraph.nodes,
      (u, v, fwDist oneEdgeGraph u v) ∈ all_pairs_shortest_paths oneEdgeGraph) ∧
    (∀ u ∈ oneEdgeGraph.nodes, fwDist oneEdgeGraph u u = 0) ∧
    (∀ u v : String, ¬ Reaches oneEdgeGraph u v →
      fwDist oneEdgeGraph u v = ⊤)) :=
  ⟨by decide, all_pairs_dense_zero_diag_unreachable_top oneEdgeGraph (by decide)⟩

/-! ## C6: the center lies in a largest strongly connected component -/

theorem mem_self_reachSet (g : LGraph) (u : String) : u ∈ reachSet g u := by
  unfold reachSet
  apply foldl_inv (fun acc => u ∈ acc)
  · exact List.mem_singleton.mpr rfl
  · intro acc _ _ h
    exact List.mem_dedup.mpr (List.mem_append_left _ h)

theorem reachb_self (g : LGraph) (u : String) : reachb g u u = true := by
  unfold reachb
  exact List.elem_eq_true_of_mem (mem_self_reachSet g u)

theorem mem_sccOf_self {g : LGraph} {u : String} (hu : u ∈ g.nodes) :
    u ∈ sccOf g u := by
  unfold sccOf
  exact List.mem_filter.mpr ⟨hu, by simp [reachb_self]⟩

theorem sccs_shape (g : LGraph) :
    ∀ C ∈ sccs g, ∃ u, u ∈ g.nodes ∧ C = sccOf g u := by
  unfold sccs
  apply foldl_inv (fun acc => ∀ C ∈ acc, ∃ u, u ∈ g.nodes ∧ C = sccOf g u)
  · intro C hC; exact absurd hC (List.not_mem_nil C)
  · intro acc u hu h C hC
    split at hC
    · exact h C hC
    · rcases List.mem_append.mp hC with h2 | h2
      · exact h C h2
      · exact ⟨u, hu, List.mem_singleton.mp h2⟩

theorem sccs_nonempty (g : LGraph) (h : g.nodes ≠ []) : sccs g ≠ [] := by
  obtain ⟨n, rest, hn⟩ := List.exists_cons_of_ne_nil h
  unfold sccs
  rw [hn, List.foldl_cons]
  simp only [List.any_nil, Bool.false_eq_true, if_false, List.nil_append]
  apply foldl_inv (fun acc : List (List String) => acc ≠ [])
  · simp
  · intro acc a _ hne
    split
    · exact hne
    · simp

theorem maxByLen_spec :
    ∀ (cs : List (List String)) (c : List String),
      ∃ L, maxByLen (c :: cs) = some L ∧ L ∈ c :: cs ∧
        ∀ C ∈ c :: cs, C.length ≤ L.length := by
  intro cs
  induction cs with
  | nil =>
    intro c
    exact ⟨c, rfl, List.mem_singleton.mpr rfl, by simp⟩
  | cons d cs ih =>
    intro c
    obtain ⟨L, hL1, hL2, hL3⟩ := ih (if d.length > c.length then d else c)
    refine ⟨L, ?_, ?_, ?_⟩
    · exact hL1
    · rcases List.mem_cons.mp hL2 with h | h
      · subst h
        split
        · exact List.mem_cons_of_mem _ (List.mem_cons_self d cs)
        · exact List.mem_cons_self _ _
      · exact List.mem_cons_of_mem _ (List.mem_cons_of_mem _ h)
    · intro C hC
      have hpick := hL3 _ (List.mem_cons_self _ cs)
      rcases List.mem_cons.mp hC with h | h
      · subst h
        refine le_trans ?_ hpick
        split
        · next hgt => exact Nat.le_of_lt hgt
        · exact Nat.le_refl _
      · rcases List.mem_cons.mp h with h2 | h2
        · subst h2
          refine le_trans ?_ hpick
          split
          · exact Nat.le_refl _
          · next hgt => exact Nat.le_of_not_lt hgt
        · exact hL3 C (List.mem_cons_of_mem _ h2)

theorem minByVal_mem (x : String × ℚ) (l : List (String × ℚ)) :
    minByVal x l ∈ x :: l := by
  unfold minByVal
  apply foldl_inv (fun best => best ∈ x :: l)
  · exact List.mem_cons_self x l
  · intro best p hp _
    split
    · exact List.mem_cons_of_mem _ hp
    · assumption

/-- C6: for every graph with at least one node that is not strongly
connected, `find_center` returns a node belonging to a largest strongly
connected component (the component of maximal size the code selects),
never a node outside it. -/
theorem find_center_in_largest_scc (g : LGraph)
    (h1 : g.nodes ≠ []) (h2 : is_strongly_connected g = false) :
    ∃ c L, find_center g = some c ∧ maxByLen (sccs g) = some L ∧
      c ∈ L ∧ L ∈ sccs g ∧ ∀ C ∈ sccs g, C.length ≤ L.length := by
  obtain ⟨c0, cs, hcs⟩ := List.exists_cons_of_ne_nil (sccs_nonempty g h1)
  obtain ⟨L, hL1, hL2, hL3⟩ := maxByLen_spec cs c0
  rw [← hcs] at hL1 hL2 hL3
  obtain ⟨u, hu, huL⟩ := sccs_shape g L hL2
  have huMem : u ∈ L := huL ▸ mem_sccOf_self hu
  have hsubmem : u ∈ (subgraphOn g L).nodes := by
    unfold subgraphOn
    exact List.mem_filter.mpr ⟨hu, List.elem_eq_true_of_mem huMem⟩
  obtain ⟨n, ns, hnodes⟩ :=
    List.exists_cons_of_ne_nil (List.ne_nil_of_mem hsubmem)
  have hfc : find_center g =
      some (minByVal (n, eccentricity (subgraphOn g L) n)
        (ns.map (fun m => (m, eccentricity (subgraphOn g L) m)))).1 := by
    unfold find_center
    rw [h2]
    simp only [Bool.false_eq_true, if_false]
    rw [hL1]
    rw [hnodes, List.map_cons]
  refine ⟨_, L, hfc, hL1, ?_, hL2, hL3⟩
  have hmem := minByVal_mem (n, eccentricity (subgraphOn g L) n)
    (ns.map (fun m => (m, eccentricity (subgraphOn g L) m)))
  have hfst : (minByVal (n, eccentricity (subgraphOn g L) n)
      (ns.map (fun m => (m, eccentricity (subgraphOn g L) m)))).1 ∈
      (subgraphOn g L).nodes := by
    rcases List.mem_cons.mp hmem with h | h
    · rw [h, hnodes]
      exact List.mem_cons_self _ _
    · obtain ⟨m, hm, hfm⟩ := List.mem_map.mp h
      rw [← hfm, hnodes]
      exact List.mem_cons_of_mem _ hm
  rw [show (subgraphOn g L).nodes =
      g.nodes.filter (fun x => L.contains x) from rfl] at hfst
  have hinL := (List.mem_filter.mp hfst).2
  exact List.mem_of_elem_eq_true hinL

/-- Witness for `find_center_in_largest_scc` on the concrete graph with
components `{x, y}` and `{z}`. -/
theorem find_center_in_largest_scc_witness :
    ∃ c L, find_center twoSccGraph = some c ∧
      maxByLen (sccs twoSccGraph) = some L ∧ c ∈ L ∧ L ∈ sccs twoSccGraph ∧
      ∀ C ∈ sccs twoSccGraph, C.length ≤ L.length :=
  find_center_in_largest_scc twoSccGraph (by decide) (by decide)

/-! ## C10: queries do not mutate the graph -/

theorem total_distanceS_state (g : LGraph) (p : List String) :
    (total_distanceS g p).2 = g := by
  unfold total_distanceS
  apply foldl_inv (fun s : ℚ × LGraph => s.2 = g)
  · rfl
  · intro s i _ hs
    simpa [edgeWeightS] using hs

theorem eccentricityS_state (g : LGraph) (node : String) :
    (eccentricityS g node).2 = g := by
  unfold eccentricityS
  apply foldl_inv (fun s : ℚ × LGraph => s.2 = g)
  · rfl
  · intro s t _ hs
    split
    · simp only [nxShortestPathLengthS]
      split <;> exact hs
    · exact hs

theorem shortest_pathS_state (g : LGraph) (s t : String) :
    (shortest_pathS g s t).2 = g := by
  unfold shortest_pathS
  simp only [nodesS, nxShortestPathS]
  split
  · rfl
  · split
    · rfl
    · exact total_distanceS_state g _

theorem find_centerS_state (g : LGraph) : (find_centerS g).2 = g := by
  unfold find_centerS
  simp only [isStronglyConnectedS, sccsS, subgraphCopyS]
  split
  · have hfold : ∀ (l : List String) (acc : List (String × ℚ)),
        (l.foldl (fun s n =>
          ((s.1 ++ [(n, (eccentricityS s.2 n).1)], (eccentricityS s.2 n).2) :
            List (String × ℚ) × LGraph)) (acc, g)).2 = g := by
      intro l
      induction l with
      | nil => intro acc; rfl
      | cons n l ih =>
        intro acc
        rw [List.foldl_cons]
        have hst : (eccentricityS g n).2 = g := eccentricityS_state g n
        rw [hst]
        exact ih _
    split
    · exact hfold g.nodes []
    · exact hfold g.nodes []
  · split
    · rfl
    · rfl

theorem get_adjacency_matrixS_state (g : LGraph) :
    (get_adjacency_matrixS g).2 = g := rfl

/-- C10: each query operation — `shortest_path`,
`all_pairs_shortest_paths`, `find_center`, `get_adjacency_matrix` —
leaves the graph state unchanged: in the state-passing compilation of
the four functions, where every graph access is threaded, the state
returned is the input graph (for `find_center`, the eccentricity loop
runs on a fresh copy of the largest-component subgraph, or reads the
input graph without writing when it is strongly connected). -/
theorem queries_leave_graph_unchanged (g : LGraph) (s t : String) :
    (shortest_pathS g s t).2 = g ∧
    (all_pairs_shortest_pathsS g).2 = g ∧
    (find_centerS g).2 = g ∧
    (get_adjacency_matrixS g).2 = g :=
  ⟨shortest_pathS_state g s t, rfl, find_centerS_state g,
   get_adjacency_matrixS_state g⟩
